import Mathlib

/-!
Verification of the retrieval subsystem of a document question-answering
application (an inverted index with TF-IDF scoring, and the upload handler
that owns the index).  The definitions below are a shallow embedding of
`helpers/index.py` (tokenize, build_index, retrieve) and of the upload
handler in `home.py`.  Python floats are idealised as real numbers, Python
dicts (which preserve insertion order) as association lists, and the stable
`sorted(..., reverse=True)` as insertion sort with a "greater or equal
score" relation, which produces the same stable descending arrangement.
-/

/-- Embeds `TOKEN_RE = re.compile(r"[a-z0-9]+")`: a character belongs to a
token iff it is an ASCII lowercase letter or digit. -/
def isTok (c : Char) : Bool :=
  decide (('a' ≤ c ∧ c ≤ 'z') ∨ ('0' ≤ c ∧ c ≤ '9'))

/-- Splits a character list into the maximal runs of token characters,
accumulating the current (reversed) run in `cur`. -/
def runsAux : List Char → List Char → List (List Char)
  | cur, [] => if cur = [] then [] else [cur.reverse]
  | cur, c :: cs =>
    if isTok c then runsAux (c :: cur) cs
    else if cur = [] then runsAux [] cs else cur.reverse :: runsAux [] cs

/-- Embeds `_tokenize`: lower-case the text, then extract the maximal runs
matching `[a-z0-9]+`. -/
def tokenize (s : String) : List String :=
  (runsAux [] (s.data.map Char.toLower)).map List.asString

/-- One retrievable chunk: the fields of the chunk dicts that the retrieval
core reads (`id` and `text`; `filename`/`page` are display-only pass-through
and are not consulted by `build_index`/`retrieve`). -/
structure Chunk where
  id : String
  text : String
deriving DecidableEq, Repr

/-- Association-list lookup; embeds `d.get(k)` / `k in d` on a Python dict,
which we model as an insertion-ordered association list. -/
def alookup {κ β : Type} [DecidableEq κ] (t : κ) : List (κ × β) → Option β
  | [] => none
  | p :: rest => if p.1 = t then some p.2 else alookup t rest

/-- The inverted index `inv`: term -> list of (chunk position, term
frequency in that chunk), in dict insertion order. -/
abbrev InvIdx := List (String × List (ℕ × ℕ))

/-- Embeds `tf[t] += 1` on a `defaultdict(int)`: bump the first entry with
key `t`, or append `(t, 1)` at the end. -/
def bumpTF (t : String) : List (String × ℕ) → List (String × ℕ)
  | [] => [(t, 1)]
  | p :: rest => if p.1 = t then (p.1, p.2 + 1) :: rest else p :: bumpTF t rest

/-- Embeds the per-chunk term-frequency dict: `for t in toks: tf[t] += 1`. -/
def chunkTF (toks : List String) : List (String × ℕ) :=
  toks.foldl (fun acc t => bumpTF t acc) []

/-- Embeds `inv[t].append((i, cnt))` on a `defaultdict(list)`: append the
posting to `t`'s list, creating the entry at the end if absent. -/
def addPosting (t : String) (p : ℕ × ℕ) : InvIdx → InvIdx
  | [] => [(t, [p])]
  | q :: rest => if q.1 = t then (q.1, q.2 ++ [p]) :: rest else q :: addPosting t p rest

/-- The loop body of `build_index` over the enumerated chunks: `k` is the
position of the next chunk, `inv`/`lens` the state built so far. -/
def buildSteps (k : ℕ) (inv : InvIdx) (lens : List ℕ) : List Chunk → InvIdx × List ℕ
  | [] => (inv, lens)
  | c :: rest =>
    let toks := tokenize c.text
    let lens2 := lens ++ [max 1 toks.length]
    let inv2 :=
      if toks = [] then inv
      else (chunkTF toks).foldl (fun v uc => addPosting uc.1 (k, uc.2) v) inv
    buildSteps (k + 1) inv2 lens2 rest

/-- The index record returned by `build_index`.  The Python dict `idf` is a
pure function of `inv` and `N` (it maps each key of `inv` through the
smoothed-IDF formula applied to its posting-list length), so instead of
storing real-number weights we recover them with `dfMap`/`idfGet` below;
this keeps the structure decidable. -/
structure Index where
  chunks : List Chunk
  inv : InvIdx
  lens : List ℕ
  N : ℕ
deriving DecidableEq, Repr

/-- Embeds `df = \x7bt: len(posts) for t, posts in inv.items()\x7d`. -/
def dfMap (inv : InvIdx) : List (String × ℕ) :=
  inv.map fun p => (p.1, p.2.length)

/-- Embeds `build_index(chunks)`. -/
def build_index (chunks : List Chunk) : Index :=
  let il := buildSteps 0 [] [] chunks
  ⟨chunks, il.1, il.2, max 1 chunks.length⟩

/-- The smoothed IDF weight `log((N + 1) / (df + 0.5)) + 1.0`. -/
noncomputable def idfW (N d : ℕ) : ℝ :=
  Real.log ((N + 1) / (d + 1 / 2)) + 1

/-- Embeds `idf.get(qt, 1.0)`: the idf dict has exactly the keys of `inv`,
each mapped through the smoothed-IDF formula of its document frequency. -/
noncomputable def idfGet (idx : Index) (t : String) : ℝ :=
  match alookup t (dfMap idx.inv) with
  | some d => idfW idx.N d
  | none => 1

/-- Embeds `lens[i]`; `build_index` guarantees every posting position is in
range (proved below), so the out-of-range default is never consulted. -/
def lenAt (idx : Index) (i : ℕ) : ℕ :=
  (idx.lens.get? i).getD 0

/-- Embeds `scores[i] += v` on a `defaultdict(float)`: add to the entry with
key `i`, or append `(i, v)` at the end (Python dicts keep insertion order,
which feeds the stable sort). -/
noncomputable def addScore (i : ℕ) (v : ℝ) : List (ℕ × ℝ) → List (ℕ × ℝ)
  | [] => [(i, v)]
  | p :: rest => if p.1 = i then (p.1, p.2 + v) :: rest else p :: addScore i v rest

/-- The body of the query-token loop in `retrieve`: skip a token with no
postings, otherwise accumulate `(tf / lens[i]) * w_idf` into the scores. -/
noncomputable def scoreStep (idx : Index) (acc : List (ℕ × ℝ)) (qt : String) :
    List (ℕ × ℝ) :=
  match alookup qt idx.inv with
  | none => acc
  | some ps =>
    if ps = [] then acc
    else
      ps.foldl
        (fun a p => addScore p.1 (((p.2 : ℝ) / (lenAt idx p.1 : ℝ)) * idfGet idx qt) a)
        acc

/-- The accumulated scores dict after the whole query-token loop. -/
noncomputable def scoresList (idx : Index) (qts : List String) : List (ℕ × ℝ) :=
  qts.foldl (scoreStep idx) []

/-- Embeds `sorted(scores.items(), key=lambda x: x[1], reverse=True)`:
Python's stable descending sort equals insertion sort with the relation
"score at least as large". -/
noncomputable def rankScores (l : List (ℕ × ℝ)) : List (ℕ × ℝ) :=
  List.insertionSort (fun a b => b.2 ≤ a.2) l

/-- The ranked, truncated list `sorted(...)[:max(1, top_k)]`. -/
noncomputable def rankedList (idx : Index) (qts : List String) (topk : ℤ) :
    List (ℕ × ℝ) :=
  (rankScores (scoresList idx qts)).take (max 1 topk).toNat

/-- Embeds `retrieve(index, query, top_k)`.  A result item is the chunk
(shallow copy) paired with its score; `index = none` models a missing
index, and `top_k` is a Python int, hence `ℤ`. -/
noncomputable def retrieve (index : Option Index) (query : String) (topk : ℤ) :
    List (Chunk × ℝ) :=
  match index with
  | none => []
  | some idx =>
    if query = "" then []
    else
      let qts := tokenize query
      if qts = [] then []
      else
        let scores := scoresList idx qts
        if scores.isEmpty then []
        else
          (rankedList idx qts topk).map fun p =>
            ((idx.chunks.get? p.1).getD ⟨"", ""⟩, p.2)

/-- Specification-side description of a term's posting list: the positions
(from offset `k`) of the chunks containing `t`, each with `t`'s occurrence
count there.  Defined independently of `build_index` and used to
characterise it. -/
def postingsOf (t : String) : ℕ → List Chunk → List (ℕ × ℕ)
  | _, [] => []
  | k, c :: rest =>
    (if List.count t (tokenize c.text) = 0 then []
     else [(k, List.count t (tokenize c.text))]) ++ postingsOf t (k + 1) rest

/-- Number of chunks whose text contains the term `t`. -/
def dfCount (t : String) (chunks : List Chunk) : ℕ :=
  (chunks.filter fun c => decide (t ∈ tokenize c.text)).length

/-- Appends further postings to an optional posting list, `none` standing
for "this term has no entry yet"; used to characterise `buildSteps`. -/
def optAppend (o : Option (List (ℕ × ℕ))) (ps : List (ℕ × ℕ)) :
    Option (List (ℕ × ℕ)) :=
  match o, ps with
  | none, [] => none
  | none, ps => some ps
  | some l, ps => some (l ++ ps)

/-- The accumulated score a chunk position holds in a scores list (0 when
the position has no entry, as for a `defaultdict(float)`). -/
noncomputable def getScore (i : ℕ) (l : List (ℕ × ℝ)) : ℝ :=
  (alookup i l).getD 0

/-- Invariant of every entry of the accumulated scores list: strictly
positive score, in-range chunk position, and the chunk shares at least one
token with the query token list. -/
def ScoreEntryOK (chunks : List Chunk) (qts : List String) (e : ℕ × ℝ) : Prop :=
  0 < e.2 ∧ e.1 < chunks.length ∧
    ∃ c, chunks.get? e.1 = some c ∧ ∃ tq ∈ qts, tq ∈ tokenize c.text

/-- The chunk collection of the spec's ranking scenario. -/
def demoChunks : List Chunk :=
  [⟨"a", "the cat sat"⟩, ⟨"b", "the dog ran"⟩, ⟨"c", "cat and dog play"⟩]

/-- A two-chunk collection whose chunks tie on the query `"a b"`: chunk 0
matches only the second query token, chunk 1 only the first. -/
def tieChunks : List Chunk :=
  [⟨"x", "b"⟩, ⟨"y", "a"⟩]

/-- The session state the upload handler in `home.py` reads and writes:
`ss.docs`, `ss.chunks`, `ss.index`, `ss.last_upload_fp`.  Docs and
fingerprints are opaque to the retrieval core, so they are modelled as
strings and name/size pairs. -/
structure AppState where
  docs : List String
  chunks : List Chunk
  index : Option Index
  lastFp : Option (List (String × ℕ))
deriving Repr

/-- Embeds the upload branch of `home.py` (the body guarded by
`fp != ss.last_upload_fp`, lines 86-113): `result` is the outcome of
`process_uploads` (its `docs` and `chunks`, or an exception message), and
`buildFails` models the `try/except` around `build_index` (lines 103-107):
the embedded `build_index` is total, but the handler catches any exception
from the surrounding system and then sets the session index to `None`. -/
def uploadHandler (st : AppState) (fp : List (String × ℕ))
    (result : Except String (List String × List Chunk)) (buildFails : Bool) :
    AppState :=
  if st.lastFp = some fp then st
  else
    match result with
    | Except.error _ => st
    | Except.ok (newDocs, newChunks) =>
      if newDocs = [] ∨ newChunks = [] then
        ⟨st.docs, st.chunks, st.index, some fp⟩
      else
        let newIndex := if buildFails then none else some (build_index newChunks)
        ⟨newDocs, newChunks, newIndex, some fp⟩

example : tokenize "Hello, World! 123" = ["hello", "world", "123"] := by decide
example : tokenize "cat dog" = ["cat", "dog"] := by decide
example : tokenize "" = [] := by decide
example :
    build_index [⟨"a", "the cat sat"⟩, ⟨"b", "the dog ran"⟩, ⟨"c", "cat and dog play"⟩] =
      ⟨[⟨"a", "the cat sat"⟩, ⟨"b", "the dog ran"⟩, ⟨"c", "cat and dog play"⟩],
        [("the", [(0, 1), (1, 1)]), ("cat", [(0, 1), (2, 1)]), ("sat", [(0, 1)]),
          ("dog", [(1, 1), (2, 1)]), ("ran", [(1, 1)]), ("and", [(2, 1)]),
          ("play", [(2, 1)])],
        [3, 3, 4], 3⟩ := by decide

/-! ### Association-list lemmas -/

theorem alookup_eq_none {κ β : Type} [DecidableEq κ] (t : κ) (l : List (κ × β)) :
    alookup t l = none ↔ t ∉ l.map Prod.fst := by
  induction l with
  | nil => simp [alookup]
  | cons p rest ih =>
    by_cases h : p.1 = t
    · simp [alookup, h]
    · rw [alookup, if_neg h, ih]
      simp only [List.map_cons, List.mem_cons]
      constructor
      · intro hn hc
        rcases hc with hc | hc
        · exact h hc.symm
        · exact hn hc
      · intro hn hc
        exact hn (Or.inr hc)

theorem alookup_bumpTF (t u : String) (l : List (String × ℕ)) :
    alookup t (bumpTF u l) =
      if u = t then some ((alookup t l).getD 0 + 1) else alookup t l := by
  induction l with
  | nil => by_cases h : u = t <;> simp [bumpTF, alookup, h]
  | cons p rest ih =>
    rw [bumpTF]
    by_cases hp : p.1 = u
    · rw [if_pos hp]
      by_cases ht : u = t
      · rw [if_pos ht, alookup, if_pos (hp.trans ht), alookup, if_pos (hp.trans ht)]
        simp
      · have hpt : ¬ p.1 = t := fun hc => ht (hp.symm.trans hc)
        rw [if_neg ht, alookup, if_neg hpt, alookup, if_neg hpt]
    · rw [if_neg hp]
      by_cases hpt : p.1 = t
      · have hut : ¬ u = t := fun he => hp (hpt.trans he.symm)
        rw [if_neg hut, alookup, if_pos hpt, alookup, if_pos hpt]
      · rw [alookup, if_neg hpt, ih, alookup, if_neg hpt]

theorem alookup_bumpFold (t : String) (toks : List String)
    (acc : List (String × ℕ)) :
    alookup t (toks.foldl (fun a u => bumpTF u a) acc) =
      if List.count t toks = 0 then alookup t acc
      else some ((alookup t acc).getD 0 + List.count t toks) := by
  induction toks generalizing acc with
  | nil => simp
  | cons u rest ih =>
    rw [List.foldl_cons, ih, alookup_bumpTF, List.count_cons]
    by_cases h : u = t
    · by_cases hr : List.count t rest = 0 <;>
        simp [h, hr] <;> cases alookup t acc <;> simp <;> omega
    · simp [h, fun he : t = u => h he.symm]

theorem alookup_chunkTF (t : String) (toks : List String) :
    alookup t (chunkTF toks) =
      if List.count t toks = 0 then none else some (List.count t toks) := by
  have h := alookup_bumpFold t toks []
  by_cases hc : List.count t toks = 0 <;> simpa [chunkTF, alookup, hc] using h

theorem keys_bumpTF (u : String) (l : List (String × ℕ)) :
    (bumpTF u l).map Prod.fst =
      if u ∈ l.map Prod.fst then l.map Prod.fst else l.map Prod.fst ++ [u] := by
  induction l with
  | nil => simp [bumpTF]
  | cons p rest ih =>
    rw [bumpTF]
    by_cases hp : p.1 = u
    · rw [if_pos hp, List.map_cons, List.map_cons,
        if_pos (by rw [hp]; exact List.mem_cons_self _ _)]
    · rw [if_neg hp, List.map_cons, ih, List.map_cons]
      have hne : ¬ u = p.1 := fun he => hp he.symm
      by_cases hm : u ∈ rest.map Prod.fst
      · rw [if_pos hm, if_pos (List.mem_cons_of_mem _ hm)]
      · rw [if_neg hm, if_neg (by simp [hne, hm]), List.cons_append]

theorem nodup_keys_bumpTF (u : String) (l : List (String × ℕ))
    (h : (l.map Prod.fst).Nodup) : ((bumpTF u l).map Prod.fst).Nodup := by
  rw [keys_bumpTF]
  by_cases hm : u ∈ l.map Prod.fst
  · simpa [hm] using h
  · rw [if_neg hm]
    refine List.Nodup.append h (List.nodup_singleton u) ?_
    intro a ha hau
    rw [List.mem_singleton] at hau
    exact hm (hau ▸ ha)

theorem nodup_keys_chunkTF (toks : List String) :
    ((chunkTF toks).map Prod.fst).Nodup := by
  have main : ∀ (ts : List String) (acc : List (String × ℕ)),
      (acc.map Prod.fst).Nodup →
      ((ts.foldl (fun a u => bumpTF u a) acc).map Prod.fst).Nodup := by
    intro ts
    induction ts with
    | nil => intro acc h; simpa using h
    | cons u rest ih => intro acc h; exact ih _ (nodup_keys_bumpTF u acc h)
  simpa [chunkTF] using main toks [] (by simp)

theorem alookup_addPosting (t u : String) (p : ℕ × ℕ) (l : InvIdx) :
    alookup t (addPosting u p l) =
      if u = t then some ((alookup t l).getD [] ++ [p]) else alookup t l := by
  induction l with
  | nil => by_cases h : u = t <;> simp [addPosting, alookup, h]
  | cons q rest ih =>
    rw [addPosting]
    by_cases hq : q.1 = u
    · rw [if_pos hq]
      by_cases ht : u = t
      · rw [if_pos ht, alookup, if_pos (hq.trans ht), alookup, if_pos (hq.trans ht)]
        simp
      · have hqt : ¬ q.1 = t := fun hc => ht (hq.symm.trans hc)
        rw [if_neg ht, alookup, if_neg hqt, alookup, if_neg hqt]
    · rw [if_neg hq]
      by_cases hqt : q.1 = t
      · have hut : ¬ u = t := fun he => hq (hqt.trans he.symm)
        rw [if_neg hut, alookup, if_pos hqt, alookup, if_pos hqt]
      · rw [alookup, if_neg hqt, ih, alookup, if_neg hqt]

theorem alookup_postFold_none (t : String) (k : ℕ) (tfl : List (String × ℕ))
    (inv : InvIdx) (h : alookup t tfl = none) :
    alookup t (tfl.foldl (fun v uc => addPosting uc.1 (k, uc.2) v) inv) =
      alookup t inv := by
  induction tfl generalizing inv with
  | nil => rfl
  | cons uc rest ih =>
    have h1 : ¬ uc.1 = t := by
      intro he; simp [alookup, he] at h
    have h2 : alookup t rest = none := by
      simpa [alookup, h1] using h
    rw [List.foldl_cons, ih _ h2, alookup_addPosting, if_neg h1]

theorem alookup_postFold (t : String) (k : ℕ) (tfl : List (String × ℕ))
    (inv : InvIdx) (hnd : (tfl.map Prod.fst).Nodup) :
    alookup t (tfl.foldl (fun v uc => addPosting uc.1 (k, uc.2) v) inv) =
      match alookup t tfl with
      | none => alookup t inv
      | some c => some ((alookup t inv).getD [] ++ [(k, c)]) := by
  induction tfl generalizing inv with
  | nil => rfl
  | cons uc rest ih =>
    rw [List.foldl_cons]
    by_cases hu : uc.1 = t
    · have hrest : alookup t rest = none := by
        rw [alookup_eq_none]
        intro hm
        rw [List.map_cons, List.nodup_cons] at hnd
        exact hnd.1 (hu ▸ hm)
      rw [alookup_postFold_none t k rest _ hrest, alookup_addPosting, if_pos hu]
      simp [alookup, hu]
    · have hnd2 : (rest.map Prod.fst).Nodup := by
        rw [List.map_cons, List.nodup_cons] at hnd
        exact hnd.2
      rw [ih _ hnd2, alookup_addPosting, if_neg hu]
      simp [alookup, hu]

theorem alookup_dfMap (t : String) (inv : InvIdx) :
    alookup t (dfMap inv) = (alookup t inv).map List.length := by
  induction inv with
  | nil => rfl
  | cons p rest ih => by_cases h : p.1 = t <;> simp [dfMap, alookup, h] <;>
      simpa [dfMap] using ih

/-! ### Characterisation of the built index -/

theorem optAppend_nil (o : Option (List (ℕ × ℕ))) : optAppend o [] = o := by
  cases o with
  | none => rfl
  | some l => simp [optAppend]

theorem optAppend_some (l ps : List (ℕ × ℕ)) :
    optAppend (some l) ps = some (l ++ ps) := rfl

theorem optAppend_ne_nil (o : Option (List (ℕ × ℕ))) (ps : List (ℕ × ℕ))
    (h : ps ≠ []) : optAppend o ps = some (o.getD [] ++ ps) := by
  cases o with
  | none => cases ps with
    | nil => exact absurd rfl h
    | cons p rest => rfl
  | some l => rfl

theorem optAppend_append (o : Option (List (ℕ × ℕ))) (ps qs : List (ℕ × ℕ)) :
    optAppend o (ps ++ qs) = optAppend (optAppend o ps) qs := by
  by_cases hp : ps = []
  · subst hp
    rw [optAppend_nil, List.nil_append]
  · rw [optAppend_ne_nil o ps hp, optAppend_some,
      optAppend_ne_nil o _ (fun hc => hp (List.append_eq_nil.mp hc).1)]
    simp

theorem alookup_chunkFold (t : String) (k : ℕ) (toks : List String) (inv : InvIdx) :
    alookup t ((chunkTF toks).foldl (fun v uc => addPosting uc.1 (k, uc.2) v) inv) =
      optAppend (alookup t inv)
        (if List.count t toks = 0 then [] else [(k, List.count t toks)]) := by
  rw [alookup_postFold t k _ _ (nodup_keys_chunkTF toks), alookup_chunkTF]
  by_cases hc : List.count t toks = 0
  · simp [hc, optAppend_nil]
  · rw [if_neg hc, if_neg hc, optAppend_ne_nil _ _ (by simp)]

theorem buildSteps_lens (cs : List Chunk) :
    ∀ (k : ℕ) (inv : InvIdx) (lens : List ℕ),
      (buildSteps k inv lens cs).2 =
        lens ++ cs.map (fun c => max 1 (tokenize c.text).length) := by
  induction cs with
  | nil => intro k inv lens; simp [buildSteps]
  | cons c rest ih =>
    intro k inv lens
    simp only [buildSteps]
    rw [ih]
    simp

theorem buildSteps_alookup (t : String) (cs : List Chunk) :
    ∀ (k : ℕ) (inv : InvIdx) (lens : List ℕ),
      alookup t (buildSteps k inv lens cs).1 =
        optAppend (alookup t inv) (postingsOf t k cs) := by
  induction cs with
  | nil =>
    intro k inv lens
    rw [buildSteps, postingsOf, optAppend_nil]
  | cons c rest ih =>
    intro k inv lens
    simp only [buildSteps]
    rw [ih, postingsOf, optAppend_append]
    by_cases htoks : tokenize c.text = []
    · rw [if_pos htoks]
      have hc : List.count t (tokenize c.text) = 0 := by rw [htoks]; rfl
      rw [hc]
      simp [optAppend_nil]
    · rw [if_neg htoks, alookup_chunkFold]

theorem build_index_lens (chunks : List Chunk) :
    (build_index chunks).lens =
      chunks.map fun c => max 1 (tokenize c.text).length := by
  simpa [build_index] using buildSteps_lens chunks 0 [] []

theorem build_index_alookup (t : String) (chunks : List Chunk) :
    alookup t (build_index chunks).inv = optAppend none (postingsOf t 0 chunks) := by
  simpa [build_index, alookup] using buildSteps_alookup t chunks 0 [] []

theorem postingsOf_mem (t : String) (cs : List Chunk) :
    ∀ (k : ℕ) (p : ℕ × ℕ), p ∈ postingsOf t k cs →
      k ≤ p.1 ∧ p.1 < k + cs.length ∧
        ∃ c, cs.get? (p.1 - k) = some c ∧
          p.2 = List.count t (tokenize c.text) ∧ 0 < p.2 := by
  induction cs with
  | nil => intro k p hp; simp [postingsOf] at hp
  | cons c rest ih =>
    intro k p hp
    rw [postingsOf] at hp
    rcases List.mem_append.mp hp with hh | ht2
    · by_cases hc : List.count t (tokenize c.text) = 0
      · rw [if_pos hc] at hh
        simp at hh
      · rw [if_neg hc, List.mem_singleton] at hh
        subst hh
        exact ⟨le_refl k, by simp, c, by simp, rfl, Nat.pos_of_ne_zero hc⟩
    · obtain ⟨h1, h2, c2, hget, hcnt, hpos⟩ := ih (k + 1) p ht2
      refine ⟨by omega, by simp only [List.length_cons]; omega, c2, ?_, hcnt, hpos⟩
      have hsub : p.1 - k = (p.1 - (k + 1)) + 1 := by omega
      rw [hsub]
      simpa using hget

theorem postingsOf_pairwise (t : String) (cs : List Chunk) (k : ℕ) :
    (postingsOf t k cs).Pairwise (fun a b => a.1 < b.1) := by
  induction cs generalizing k with
  | nil => simp [postingsOf]
  | cons c rest ih =>
    rw [postingsOf]
    by_cases hc : List.count t (tokenize c.text) = 0
    · simpa [hc] using ih (k + 1)
    · rw [if_neg hc, List.singleton_append, List.pairwise_cons]
      refine ⟨?_, ih (k + 1)⟩
      intro b hb
      have hle := (postingsOf_mem t rest (k + 1) b hb).1
      simpa using lt_of_lt_of_le (Nat.lt_succ_self k) hle

theorem postingsOf_length (t : String) (cs : List Chunk) (k : ℕ) :
    (postingsOf t k cs).length = dfCount t cs := by
  induction cs generalizing k with
  | nil => rfl
  | cons c rest ih =>
    rw [postingsOf, List.length_append, ih (k + 1)]
    by_cases hc : List.count t (tokenize c.text) = 0
    · have hnm : t ∉ tokenize c.text := List.count_eq_zero.mp hc
      simp [hc, dfCount, List.filter_cons, hnm]
    · have hm : t ∈ tokenize c.text := by
        by_contra hnm
        exact hc (List.count_eq_zero.mpr hnm)
      simp [hc, dfCount, List.filter_cons, hm]
      omega

theorem dfCount_le (t : String) (cs : List Chunk) : dfCount t cs ≤ cs.length :=
  List.length_filter_le _ _

theorem postingsOf_eq_nil_iff (t : String) (cs : List Chunk) (k : ℕ) :
    postingsOf t k cs = [] ↔ ∀ c ∈ cs, t ∉ tokenize c.text := by
  induction cs generalizing k with
  | nil => simp [postingsOf]
  | cons c rest ih =>
    rw [postingsOf, List.append_eq_nil]
    by_cases hc : List.count t (tokenize c.text) = 0
    · rw [if_pos hc]
      simp only [true_and]
      rw [ih (k + 1)]
      constructor
      · intro h c2 hc2
        rcases List.mem_cons.mp hc2 with rfl | hm
        · exact List.count_eq_zero.mp hc
        · exact h c2 hm
      · intro h c2 hm
        exact h c2 (List.mem_cons_of_mem _ hm)
    · rw [if_neg hc]
      constructor
      · intro h
        exact absurd h.1 (by simp)
      · intro h
        exact absurd (List.count_eq_zero.mpr (h c (List.mem_cons_self c rest))) hc

/-! ### Analytic facts about the smoothed IDF weight -/

theorem idfW_pos (N d : ℕ) (h : d ≤ N) : 0 < idfW N d := by
  have h1 : (0:ℝ) < (d:ℝ) + 1 / 2 := by positivity
  have h2 : (d:ℝ) + 1 / 2 < (N:ℝ) + 1 := by
    have hd : (d:ℝ) ≤ (N:ℝ) := by exact_mod_cast h
    linarith
  have hlog : 0 < Real.log (((N:ℝ) + 1) / ((d:ℝ) + 1 / 2)) := by
    apply Real.log_pos
    rw [lt_div_iff₀ h1]
    linarith
  unfold idfW
  linarith

theorem idfW_strictAnti (N d e : ℕ) (h : d < e) : idfW N e < idfW N d := by
  unfold idfW
  have h1 : (0:ℝ) < (d:ℝ) + 1 / 2 := by positivity
  have h2 : (d:ℝ) + 1 / 2 < (e:ℝ) + 1 / 2 := by
    have hd : (d:ℝ) < (e:ℝ) := by exact_mod_cast h
    linarith
  have hN : (0:ℝ) < (N:ℝ) + 1 := by positivity
  have hdiv : ((N:ℝ) + 1) / ((e:ℝ) + 1 / 2) < ((N:ℝ) + 1) / ((d:ℝ) + 1 / 2) :=
    div_lt_div_of_pos_left hN h1 h2
  have hpos : (0:ℝ) < ((N:ℝ) + 1) / ((e:ℝ) + 1 / 2) := by positivity
  have hlog := Real.log_lt_log hpos hdiv
  linarith

theorem build_index_alookup_some (t : String) (chunks : List Chunk)
    (ps : List (ℕ × ℕ)) (h : alookup t (build_index chunks).inv = some ps) :
    ps = postingsOf t 0 chunks := by
  rw [build_index_alookup] at h
  by_cases hnil : postingsOf t 0 chunks = []
  · rw [hnil] at h
    simp [optAppend] at h
  · rw [optAppend_ne_nil _ _ hnil] at h
    simpa using h.symm

theorem build_index_alookup_of_ne_nil (t : String) (chunks : List Chunk)
    (h : postingsOf t 0 chunks ≠ []) :
    alookup t (build_index chunks).inv = some (postingsOf t 0 chunks) := by
  rw [build_index_alookup, optAppend_ne_nil _ _ h]
  simp

theorem build_index_N (chunks : List Chunk) :
    (build_index chunks).N = max 1 chunks.length := rfl

theorem build_index_chunks (chunks : List Chunk) :
    (build_index chunks).chunks = chunks := rfl

theorem idfGet_build (chunks : List Chunk) (t : String)
    (h : postingsOf t 0 chunks ≠ []) :
    idfGet (build_index chunks) t = idfW (build_index chunks).N (dfCount t chunks) := by
  rw [idfGet, alookup_dfMap, build_index_alookup_of_ne_nil t chunks h]
  simp [postingsOf_length]

/-- C8: for every chunk collection, build_index records
`lengths[i] = max(1, token count of chunk i)` positionally; every stored
posting list is strictly ascending in chunk position (hence at most one
entry per position) with the recorded frequency equal to the term's
occurrence count in that chunk; `N = max(1, chunk count)`; and the empty
collection yields an index with empty postings (hence empty df/idf maps)
and `N = 1`. -/
theorem build_index_invariants (chunks : List Chunk) :
    (build_index chunks).lens =
        chunks.map (fun c => max 1 (tokenize c.text).length) ∧
      (∀ t ps, alookup t (build_index chunks).inv = some ps →
        ps.Pairwise (fun a b => a.1 < b.1) ∧
          ∀ p ∈ ps, ∃ c, chunks.get? p.1 = some c ∧
            p.2 = List.count t (tokenize c.text) ∧ 0 < p.2) ∧
      (build_index chunks).N = max 1 chunks.length ∧
      build_index ([] : List Chunk) = ⟨[], [], [], 1⟩ := by
  refine ⟨build_index_lens chunks, ?_, rfl, by decide⟩
  intro t ps h
  have hps := build_index_alookup_some t chunks ps h
  subst hps
  refine ⟨postingsOf_pairwise t chunks 0, ?_⟩
  intro p hp
  obtain ⟨-, -, c, hget, hcnt, hpos⟩ := postingsOf_mem t chunks 0 p hp
  exact ⟨c, by simpa using hget, hcnt, hpos⟩

theorem build_index_invariants_witness :
    ([(0, 2)] : List (ℕ × ℕ)).Pairwise (fun a b => a.1 < b.1) ∧
      ∀ p ∈ ([(0, 2)] : List (ℕ × ℕ)),
        ∃ c, [Chunk.mk "a" "x y x"].get? p.1 = some c ∧
          p.2 = List.count "x" (tokenize c.text) ∧ 0 < p.2 :=
  (build_index_invariants [⟨"a", "x y x"⟩]).2.1 "x" [(0, 2)] (by decide)

/-- C10: for every index produced by build_index, every chunk position
stored in any posting list is within range of both `lens` and `chunks`
(which have the same length), and every term that has a posting list also
has a df (hence idf) entry, so retrieve's fallback idf weight of 1.0 is
never consulted for stored terms. -/
theorem retrieve_safety (chunks : List Chunk) :
    (build_index chunks).lens.length = (build_index chunks).chunks.length ∧
      (∀ t ps, alookup t (build_index chunks).inv = some ps →
        ∀ p ∈ ps, p.1 < (build_index chunks).lens.length ∧
          p.1 < (build_index chunks).chunks.length) ∧
      (∀ t, (alookup t (build_index chunks).inv).isSome →
        (alookup t (dfMap (build_index chunks).inv)).isSome) := by
  refine ⟨by rw [build_index_lens, build_index_chunks, List.length_map], ?_, ?_⟩
  · intro t ps h p hp
    have hps := build_index_alookup_some t chunks ps h
    subst hps
    obtain ⟨-, hlt, -⟩ := postingsOf_mem t chunks 0 p hp
    rw [build_index_lens, build_index_chunks, List.length_map]
    omega
  · intro t h
    rw [alookup_dfMap]
    simpa using h

theorem retrieve_safety_witness :
    ∀ p ∈ ([(0, 2)] : List (ℕ × ℕ)),
      p.1 < (build_index [Chunk.mk "a" "x y x"]).lens.length ∧
        p.1 < (build_index [Chunk.mk "a" "x y x"]).chunks.length :=
  (retrieve_safety [⟨"a", "x y x"⟩]).2.1 "x" [(0, 2)] (by decide)

/-- C5: for every non-empty chunk collection and every term appearing in at
least one chunk, the term's idf weight is
`ln((N + 1) / (df + 0.5)) + 1` with `df` the number of chunks containing
the term and `N` the chunk count; this weight is strictly positive, and
the weight function is strictly decreasing in df. -/
theorem idf_formula (chunks : List Chunk) (t : String)
    (hne : chunks ≠ []) (hmem : ∃ c ∈ chunks, t ∈ tokenize c.text) :
    idfGet (build_index chunks) t =
        Real.log (((chunks.length : ℝ) + 1) / ((dfCount t chunks : ℝ) + 1 / 2)) + 1 ∧
      0 < idfGet (build_index chunks) t ∧
      ∀ d e : ℕ, d < e →
        idfW (build_index chunks).N e < idfW (build_index chunks).N d := by
  have hpost : postingsOf t 0 chunks ≠ [] := by
    rw [Ne, postingsOf_eq_nil_iff]
    intro hall
    obtain ⟨c, hc, hmem2⟩ := hmem
    exact hall c hc hmem2
  have hN : (build_index chunks).N = chunks.length := by
    rw [build_index_N]
    have : chunks.length ≠ 0 := fun h => hne (List.length_eq_zero.mp h)
    omega
  have hidf := idfGet_build chunks t hpost
  refine ⟨?_, ?_, ?_⟩
  · rw [hidf, hN, idfW]
  · rw [hidf]
    exact idfW_pos _ _ (hN ▸ dfCount_le t chunks)
  · intro d e hde
    exact idfW_strictAnti _ d e hde

theorem idf_formula_witness :
    idfGet (build_index [Chunk.mk "a" "cat"]) "cat" =
        Real.log ((((1 : ℕ) : ℝ) + 1) /
          ((dfCount "cat" [Chunk.mk "a" "cat"] : ℝ) + 1 / 2)) + 1 ∧
      0 < idfGet (build_index [Chunk.mk "a" "cat"]) "cat" ∧
      ∀ d e : ℕ, d < e →
        idfW (build_index [Chunk.mk "a" "cat"]).N e <
          idfW (build_index [Chunk.mk "a" "cat"]).N d :=
  idf_formula [⟨"a", "cat"⟩] "cat" (by decide) ⟨⟨"a", "cat"⟩, by decide, by decide⟩

/-! ### The accumulated scores -/

theorem getScore_addScore (i j : ℕ) (v : ℝ) (l : List (ℕ × ℝ)) :
    getScore i (addScore j v l) = getScore i l + if j = i then v else 0 := by
  induction l with
  | nil =>
    rw [addScore]
    by_cases h : j = i <;> simp [getScore, alookup, h]
  | cons p rest ih =>
    rw [addScore]
    by_cases hp : p.1 = j
    · rw [if_pos hp]
      by_cases hi : p.1 = i
      · rw [getScore, alookup, if_pos hi, getScore, alookup, if_pos hi,
          if_pos (hp ▸ hi)]
        simp
      · rw [getScore, alookup, if_neg hi, getScore, alookup, if_neg hi,
          if_neg (fun hc : j = i => hi (hp.trans hc))]
        simp [getScore]
    · rw [if_neg hp]
      by_cases hi : p.1 = i
      · rw [getScore, alookup, if_pos hi, getScore, alookup, if_pos hi,
          if_neg (fun hc : j = i => hp (hi.trans hc.symm))]
        simp
      · rw [getScore, alookup, if_neg hi, getScore, alookup, if_neg hi]
        exact ih

theorem getScore_postingFold (i : ℕ) (f : ℕ × ℕ → ℝ) (ps : List (ℕ × ℕ))
    (acc : List (ℕ × ℝ)) :
    getScore i (ps.foldl (fun a p => addScore p.1 (f p) a) acc) =
      getScore i acc + (ps.map fun p => if p.1 = i then f p else 0).sum := by
  induction ps generalizing acc with
  | nil => simp
  | cons p rest ih =>
    rw [List.foldl_cons, ih, getScore_addScore, List.map_cons, List.sum_cons]
    ring

theorem getScore_scoreStep (idx : Index) (i : ℕ) (qt : String)
    (acc : List (ℕ × ℝ)) :
    getScore i (scoreStep idx acc qt) =
      getScore i acc + getScore i (scoreStep idx [] qt) := by
  cases h : alookup qt idx.inv with
  | none => simp [scoreStep, h, getScore, alookup]
  | some ps =>
    by_cases hps : ps = []
    · simp [scoreStep, h, hps, getScore, alookup]
    · simp only [scoreStep, h, if_neg hps]
      rw [getScore_postingFold, getScore_postingFold]
      simp [getScore, alookup]

theorem getScore_scoresFold (idx : Index) (i : ℕ) (qts : List String)
    (acc : List (ℕ × ℝ)) :
    getScore i (qts.foldl (scoreStep idx) acc) =
      getScore i acc + getScore i (scoresList idx qts) := by
  induction qts generalizing acc with
  | nil => simp [scoresList, getScore, alookup]
  | cons q rest ih =>
    have hr : scoresList idx (q :: rest) =
        List.foldl (scoreStep idx) (scoreStep idx [] q) rest := by
      rw [scoresList, List.foldl_cons]
    rw [List.foldl_cons, ih (scoreStep idx acc q), hr, ih (scoreStep idx [] q),
      getScore_scoreStep]
    ring

/-- C3: a query term repeated m times contributes its per-occurrence score
m times: each chunk's accumulated score for a query of m occurrences of an
indexed term t equals m times its accumulated score for the one-occurrence
query. -/
theorem repeated_term_scales (idx : Index) (t : String) (m i : ℕ)
    (_hpres : (alookup t idx.inv).isSome) :
    getScore i (scoresList idx (List.replicate m t)) =
      (m : ℝ) * getScore i (scoresList idx [t]) := by
  induction m with
  | zero => simp [scoresList, getScore, alookup]
  | succ n ih =>
    rw [List.replicate_succ, scoresList, List.foldl_cons, getScore_scoresFold, ih]
    have h1 : scoresList idx [t] = scoreStep idx [] t := by
      simp [scoresList]
    rw [h1]
    push_cast
    ring

theorem repeated_term_scales_witness :
    getScore 0 (scoresList (build_index demoChunks) (List.replicate 3 "cat")) =
      ((3 : ℕ) : ℝ) * getScore 0 (scoresList (build_index demoChunks) ["cat"]) :=
  repeated_term_scales (build_index demoChunks) "cat" 3 0 (by decide)

theorem lenAt_build_pos (chunks : List Chunk) (i : ℕ) (h : i < chunks.length) :
    0 < lenAt (build_index chunks) i := by
  rw [lenAt, build_index_lens, List.get?_map]
  cases hg : chunks.get? i with
  | none => exact absurd (List.get?_eq_none.mp hg) (by omega)
  | some c =>
    simp only [hg, Option.map_some', Option.getD_some]
    omega

theorem idfGet_build_pos (chunks : List Chunk) (t : String) (ps : List (ℕ × ℕ))
    (h : alookup t (build_index chunks).inv = some ps) :
    0 < idfGet (build_index chunks) t := by
  have hne : postingsOf t 0 chunks ≠ [] := by
    intro hnil
    rw [build_index_alookup, hnil] at h
    simp [optAppend] at h
  rw [idfGet_build chunks t hne]
  apply idfW_pos
  rw [build_index_N]
  have hle := dfCount_le t chunks
  omega

theorem addScore_entryOK (chunks : List Chunk) (qts : List String) (i : ℕ)
    (v : ℝ) (l : List (ℕ × ℝ)) (hl : ∀ e ∈ l, ScoreEntryOK chunks qts e)
    (hv : 0 < v) (hi : ScoreEntryOK chunks qts (i, v)) :
    ∀ e ∈ addScore i v l, ScoreEntryOK chunks qts e := by
  induction l with
  | nil =>
    intro e he
    rw [addScore, List.mem_singleton] at he
    subst he
    exact hi
  | cons p rest ih =>
    intro e he
    rw [addScore] at he
    by_cases hp : p.1 = i
    · rw [if_pos hp] at he
      rcases List.mem_cons.mp he with heq | hm
      · subst heq
        obtain ⟨hpos, hrest⟩ := hl p (List.mem_cons_self _ _)
        exact ⟨add_pos hpos hv, hrest⟩
      · exact hl e (List.mem_cons_of_mem _ hm)
    · rw [if_neg hp] at he
      rcases List.mem_cons.mp he with heq | hm
      · subst heq
        exact hl _ (List.mem_cons_self _ _)
      · exact ih (fun e2 he2 => hl e2 (List.mem_cons_of_mem _ he2)) e hm

theorem postingFold_entryOK (chunks : List Chunk) (qts : List String)
    (f : ℕ × ℕ → ℝ) (ps : List (ℕ × ℕ))
    (hf : ∀ p ∈ ps, ScoreEntryOK chunks qts (p.1, f p)) :
    ∀ acc, (∀ e ∈ acc, ScoreEntryOK chunks qts e) →
      ∀ e ∈ ps.foldl (fun a p => addScore p.1 (f p) a) acc,
        ScoreEntryOK chunks qts e := by
  induction ps with
  | nil => exact fun acc hacc e he => hacc e he
  | cons p rest ih =>
    intro acc hacc e he
    rw [List.foldl_cons] at he
    have hp := hf p (List.mem_cons_self _ _)
    exact ih (fun r hr => hf r (List.mem_cons_of_mem _ hr)) _
      (addScore_entryOK chunks qts p.1 (f p) acc hacc hp.1 hp) e he

theorem scoreStep_entryOK (chunks : List Chunk) (qts : List String)
    (qt : String) (hqt : qt ∈ qts) (acc : List (ℕ × ℝ))
    (hacc : ∀ e ∈ acc, ScoreEntryOK chunks qts e) :
    ∀ e ∈ scoreStep (build_index chunks) acc qt, ScoreEntryOK chunks qts e := by
  cases h : alookup qt (build_index chunks).inv with
  | none => simpa [scoreStep, h] using hacc
  | some ps =>
    by_cases hps : ps = []
    · simpa [scoreStep, h, hps] using hacc
    · simp only [scoreStep, h, if_neg hps]
      apply postingFold_entryOK chunks qts _ ps _ acc hacc
      intro p hp
      have hpost := build_index_alookup_some qt chunks ps h
      rw [hpost] at hp
      obtain ⟨-, hlt, c, hget, hcnt, hpos⟩ := postingsOf_mem qt chunks 0 p hp
      rw [Nat.sub_zero] at hget
      rw [Nat.add_comm] at hlt
      have hmemtok : qt ∈ tokenize c.text := by
        by_contra hnm
        rw [List.count_eq_zero.mpr hnm] at hcnt
        omega
      refine ⟨?_, by simpa using hlt, c, hget, qt, hqt, hmemtok⟩
      have h1 : (0:ℝ) < (p.2 : ℝ) := by exact_mod_cast hpos
      have h2 : (0:ℝ) < (lenAt (build_index chunks) p.1 : ℝ) := by
        exact_mod_cast lenAt_build_pos chunks p.1 (by simpa using hlt)
      have h3 := idfGet_build_pos chunks qt ps h
      exact mul_pos (div_pos h1 h2) h3

theorem scoresFold_entryOK (chunks : List Chunk) (qts sub : List String)
    (hsub : ∀ q ∈ sub, q ∈ qts) (acc : List (ℕ × ℝ))
    (hacc : ∀ e ∈ acc, ScoreEntryOK chunks qts e) :
    ∀ e ∈ sub.foldl (scoreStep (build_index chunks)) acc,
      ScoreEntryOK chunks qts e := by
  induction sub generalizing acc with
  | nil => exact fun e he => hacc e he
  | cons q rest ih =>
    intro e he
    rw [List.foldl_cons] at he
    exact ih (fun x hx => hsub x (List.mem_cons_of_mem _ hx)) _
      (scoreStep_entryOK chunks qts q (hsub q (List.mem_cons_self _ _)) acc hacc)
      e he

theorem scoresList_ok (chunks : List Chunk) (qts : List String) :
    ∀ e ∈ scoresList (build_index chunks) qts, ScoreEntryOK chunks qts e :=
  scoresFold_entryOK chunks qts qts (fun _ h => h) []
    (fun e he => absurd he (List.not_mem_nil e))

/-- C4: every item returned by retrieve has a strictly positive score and
comes from a chunk sharing at least one token with the query, so a chunk
sharing zero tokens with the query never appears in the output. -/
theorem retrieve_no_match_excluded (chunks : List Chunk) (q : String) (k : ℤ)
    (p : Chunk × ℝ) (hp : p ∈ retrieve (some (build_index chunks)) q k) :
    0 < p.2 ∧ ∃ tq ∈ tokenize q, tq ∈ tokenize p.1.text := by
  simp only [retrieve] at hp
  split_ifs at hp with h1 h2 h3
  · simp at hp
  · simp at hp
  · simp at hp
  · obtain ⟨ip, hmem, heq⟩ := List.mem_map.mp hp
    rw [rankedList] at hmem
    have hrank : ip ∈ rankScores (scoresList (build_index chunks) (tokenize q)) :=
      (List.take_sublist _ _).subset hmem
    have hscore : ip ∈ scoresList (build_index chunks) (tokenize q) := by
      rw [rankScores] at hrank
      exact (List.perm_insertionSort _ _).subset hrank
    obtain ⟨hpos, hlt, c, hget, tq, htq, hshare⟩ :=
      scoresList_ok chunks (tokenize q) ip hscore
    subst heq
    refine ⟨hpos, tq, htq, ?_⟩
    rw [build_index_chunks, hget]
    simpa using hshare

/-- C6: the sequence returned by retrieve has length at most top_k whenever
top_k is at least 1, and at most 1 when top_k is below 1 (the truncation
bound is max(1, top_k)). -/
theorem retrieve_topk_bound (idx : Option Index) (q : String) (k : ℤ) :
    (1 ≤ k → (retrieve idx q k).length ≤ k.toNat) ∧
      (k < 1 → (retrieve idx q k).length ≤ 1) := by
  have hlen : (retrieve idx q k).length ≤ (max 1 k).toNat := by
    cases idx with
    | none => simp [retrieve]
    | some i =>
      simp only [retrieve]
      split_ifs <;> simp [rankedList]
  constructor
  · intro hk
    have hmax : (max 1 k).toNat = k.toNat := by omega
    rw [hmax] at hlen
    exact hlen
  · intro hk
    have hmax : (max 1 k).toNat = 1 := by omega
    rw [hmax] at hlen
    exact hlen

theorem retrieve_topk_bound_witness :
    (retrieve none "query" 3).length ≤ (3 : ℤ).toNat :=
  (retrieve_topk_bound none "query" 3).1 (by decide)

/-- C7: retrieve returns an empty sequence, without failing, when the index
is absent or the query tokenizes to no terms; and a query term absent from
the index contributes nothing to any chunk's score. -/
theorem retrieve_degrades (idx : Index) (q : String) (k : ℤ) (t : String)
    (qts1 qts2 : List String) :
    retrieve none q k = [] ∧
      (tokenize q = [] → retrieve (some idx) q k = []) ∧
      (alookup t idx.inv = none →
        scoresList idx (qts1 ++ t :: qts2) = scoresList idx (qts1 ++ qts2)) := by
  refine ⟨rfl, ?_, ?_⟩
  · intro h
    simp [retrieve, h]
  · intro habs
    rw [scoresList, scoresList, List.foldl_append, List.foldl_append,
      List.foldl_cons]
    congr 1
    simp [scoreStep, habs]

theorem retrieve_degrades_witness :
    retrieve (some (build_index [])) "!!!" 5 = [] ∧
      scoresList (build_index demoChunks) (["cat"] ++ "zzz" :: ["dog"]) =
        scoresList (build_index demoChunks) (["cat"] ++ ["dog"]) :=
  ⟨(retrieve_degrades (build_index []) "!!!" 5 "zzz" [] []).2.1 (by decide),
   (retrieve_degrades (build_index demoChunks) "q" 5 "zzz" ["cat"] ["dog"]).2.2
     (by decide)⟩

/-! ### Stability of the ranking -/

theorem keys_addScore (i : ℕ) (v : ℝ) (l : List (ℕ × ℝ)) :
    (addScore i v l).map Prod.fst =
      if i ∈ l.map Prod.fst then l.map Prod.fst else l.map Prod.fst ++ [i] := by
  induction l with
  | nil => simp [addScore]
  | cons p rest ih =>
    rw [addScore]
    by_cases hp : p.1 = i
    · rw [if_pos hp, List.map_cons, List.map_cons,
        if_pos (by rw [hp]; exact List.mem_cons_self _ _)]
    · rw [if_neg hp, List.map_cons, ih, List.map_cons]
      have hne : ¬ i = p.1 := fun he => hp he.symm
      by_cases hm : i ∈ rest.map Prod.fst
      · rw [if_pos hm, if_pos (List.mem_cons_of_mem _ hm)]
      · rw [if_neg hm, if_neg (by simp [hne, hm]), List.cons_append]

theorem nodup_keys_addScore (i : ℕ) (v : ℝ) (l : List (ℕ × ℝ))
    (h : (l.map Prod.fst).Nodup) : ((addScore i v l).map Prod.fst).Nodup := by
  rw [keys_addScore]
  by_cases hm : i ∈ l.map Prod.fst
  · simpa [hm] using h
  · rw [if_neg hm]
    refine List.Nodup.append h (List.nodup_singleton i) ?_
    intro a ha hai
    rw [List.mem_singleton] at hai
    exact hm (hai ▸ ha)

theorem nodup_keys_postingFold (f : ℕ × ℕ → ℝ) (ps : List (ℕ × ℕ)) :
    ∀ acc : List (ℕ × ℝ), (acc.map Prod.fst).Nodup →
      ((ps.foldl (fun a p => addScore p.1 (f p) a) acc).map Prod.fst).Nodup := by
  induction ps with
  | nil => exact fun acc h => h
  | cons p rest ih =>
    intro acc h
    rw [List.foldl_cons]
    exact ih _ (nodup_keys_addScore p.1 (f p) acc h)

theorem nodup_keys_scoreStep (idx : Index) (qt : String) (acc : List (ℕ × ℝ))
    (h : (acc.map Prod.fst).Nodup) :
    ((scoreStep idx acc qt).map Prod.fst).Nodup := by
  cases hq : alookup qt idx.inv with
  | none => simpa [scoreStep, hq] using h
  | some ps =>
    by_cases hps : ps = []
    · simpa [scoreStep, hq, hps] using h
    · simp only [scoreStep, hq, if_neg hps]
      exact nodup_keys_postingFold _ ps acc h

theorem nodup_keys_scoresList (idx : Index) (qts : List String) :
    ((scoresList idx qts).map Prod.fst).Nodup := by
  have main : ∀ (sub : List String) (acc : List (ℕ × ℝ)),
      (acc.map Prod.fst).Nodup →
      ((sub.foldl (scoreStep idx) acc).map Prod.fst).Nodup := by
    intro sub
    induction sub with
    | nil => exact fun acc h => h
    | cons q rest ih =>
      intro acc h
      rw [List.foldl_cons]
      exact ih _ (nodup_keys_scoreStep idx q acc h)
  exact main qts [] (by simp)

theorem pair_sublist_of_mem {α : Type} {a b : α} {l : List α}
    (ha : a ∈ l) (hb : b ∈ l) (hne : a ≠ b) :
    List.Sublist [a, b] l ∨ List.Sublist [b, a] l := by
  induction l with
  | nil => simp at ha
  | cons x rest ih =>
    rcases List.mem_cons.mp ha with rfl | ha2
    · have hb2 : b ∈ rest := by
        rcases List.mem_cons.mp hb with heq | h
        · exact absurd heq.symm hne
        · exact h
      exact Or.inl ((List.singleton_sublist.mpr hb2).cons₂ a)
    · rcases List.mem_cons.mp hb with rfl | hb2
      · exact Or.inr ((List.singleton_sublist.mpr ha2).cons₂ b)
      · rcases ih ha2 hb2 with h | h
        · exact Or.inl (h.cons x)
        · exact Or.inr (h.cons x)

theorem not_pair_sublist_both {α : Type} {a b : α} {l : List α} (hnd : l.Nodup)
    (hne : a ≠ b) (h1 : List.Sublist [a, b] l) (h2 : List.Sublist [b, a] l) :
    False := by
  induction l with
  | nil => simp at h1
  | cons x rest ih =>
    rw [List.nodup_cons] at hnd
    cases h1 with
    | cons _ h1x =>
      cases h2 with
      | cons _ h2x => exact ih hnd.2 h1x h2x
      | cons₂ _ h2x => exact hnd.1 (h1x.subset (by simp))
    | cons₂ _ h1x =>
      cases h2 with
      | cons _ h2x => exact hnd.1 (h2x.subset (by simp))
      | cons₂ _ h2x => exact hne rfl

/-- C2 amended: ties in the ranked output follow the order in which chunk
positions first entered the accumulated scores dict (the scan order over
query-token postings), not ascending chunk position: whenever two items of
equal score appear in a given order in the ranked, truncated list, they
appear in that same order in the accumulated scores list. -/
theorem ties_follow_first_touch (idx : Index) (qts : List String) (k : ℤ)
    (a b : ℕ × ℝ) (hab : List.Sublist [a, b] (rankedList idx qts k))
    (htie : a.2 = b.2) :
    List.Sublist [a, b] (scoresList idx qts) := by
  rw [rankedList] at hab
  have hsorted : List.Sublist [a, b] (rankScores (scoresList idx qts)) :=
    hab.trans (List.take_sublist _ _)
  have hndl : (scoresList idx qts).Nodup :=
    (nodup_keys_scoresList idx qts).of_map
  have hnds : (rankScores (scoresList idx qts)).Nodup := by
    rw [rankScores]
    exact ((List.perm_insertionSort _ _).nodup_iff).mpr hndl
  have hmema : a ∈ scoresList idx qts := by
    have h1 : a ∈ rankScores (scoresList idx qts) := hsorted.subset (by simp)
    rw [rankScores] at h1
    exact (List.perm_insertionSort _ _).subset h1
  have hmemb : b ∈ scoresList idx qts := by
    have h1 : b ∈ rankScores (scoresList idx qts) := hsorted.subset (by simp)
    rw [rankScores] at h1
    exact (List.perm_insertionSort _ _).subset h1
  have hne : a ≠ b := by
    rintro rfl
    have hdup : ([a, a] : List (ℕ × ℝ)).Nodup := List.Nodup.sublist hsorted hnds
    simp at hdup
  rcases pair_sublist_of_mem hmema hmemb hne with h | h
  · exact h
  · exfalso
    have hba : List.Sublist [b, a] (rankScores (scoresList idx qts)) := by
      rw [rankScores]
      exact List.pair_sublist_insertionSort (le_of_eq htie) h
    exact not_pair_sublist_both hnds hne hsorted hba

/-! ### Concrete evaluation of the spec scenarios -/

theorem idfGet_demo_cat : idfGet (build_index demoChunks) "cat" = idfW 3 2 := by
  have h : alookup "cat" (dfMap (build_index demoChunks).inv) = some 2 := by decide
  rw [idfGet, h]
  rfl

theorem idfGet_demo_dog : idfGet (build_index demoChunks) "dog" = idfW 3 2 := by
  have h : alookup "dog" (dfMap (build_index demoChunks).inv) = some 2 := by decide
  rw [idfGet, h]
  rfl

theorem scoreStep_demo_cat :
    scoreStep (build_index demoChunks) [] "cat" =
      [(0, idfW 3 2 / 3), (2, idfW 3 2 / 4)] := by
  have h : alookup "cat" (build_index demoChunks).inv = some [(0, 1), (2, 1)] := by
    decide
  have hl0 : lenAt (build_index demoChunks) 0 = 3 := by decide
  have hl2 : lenAt (build_index demoChunks) 2 = 4 := by decide
  rw [scoreStep, h]
  dsimp only
  rw [if_neg (by decide : ¬ (([(0, 1), (2, 1)] : List (ℕ × ℕ)) = []))]
  simp only [List.foldl_cons, List.foldl_nil, addScore, idfGet_demo_cat, hl0, hl2]
  norm_num
  exact ⟨by ring, by ring⟩

theorem scoreStep_demo_dog :
    scoreStep (build_index demoChunks) [(0, idfW 3 2 / 3), (2, idfW 3 2 / 4)]
        "dog" =
      [(0, idfW 3 2 / 3), (2, idfW 3 2 / 4 + idfW 3 2 / 4), (1, idfW 3 2 / 3)] := by
  have h : alookup "dog" (build_index demoChunks).inv = some [(1, 1), (2, 1)] := by
    decide
  have hl1 : lenAt (build_index demoChunks) 1 = 3 := by decide
  have hl2 : lenAt (build_index demoChunks) 2 = 4 := by decide
  rw [scoreStep, h]
  dsimp only
  rw [if_neg (by decide : ¬ (([(1, 1), (2, 1)] : List (ℕ × ℕ)) = []))]
  simp only [List.foldl_cons, List.foldl_nil, addScore, idfGet_demo_dog, hl1, hl2]
  norm_num
  exact ⟨by ring, by ring⟩

theorem scoresList_demo :
    scoresList (build_index demoChunks) ["cat", "dog"] =
      [(0, idfW 3 2 / 3), (2, idfW 3 2 / 4 + idfW 3 2 / 4), (1, idfW 3 2 / 3)] := by
  rw [scoresList, List.foldl_cons, List.foldl_cons, List.foldl_nil,
    scoreStep_demo_cat, scoreStep_demo_dog]

theorem rankScores_demo :
    rankScores
        [(0, idfW 3 2 / 3), (2, idfW 3 2 / 4 + idfW 3 2 / 4), (1, idfW 3 2 / 3)] =
      [(2, idfW 3 2 / 4 + idfW 3 2 / 4), (0, idfW 3 2 / 3), (1, idfW 3 2 / 3)] := by
  have hw : 0 < idfW 3 2 := idfW_pos 3 2 (by omega)
  have h2 : idfW 3 2 / 3 ≤ idfW 3 2 / 4 + idfW 3 2 / 4 := by linarith
  have h3 : ¬ (idfW 3 2 / 4 + idfW 3 2 / 4 ≤ idfW 3 2 / 3) := by
    intro hc
    linarith
  have e1 : List.orderedInsert (fun a b : ℕ × ℝ => b.2 ≤ a.2)
      (2, idfW 3 2 / 4 + idfW 3 2 / 4) [(1, idfW 3 2 / 3)] =
      [(2, idfW 3 2 / 4 + idfW 3 2 / 4), (1, idfW 3 2 / 3)] := by
    rw [List.orderedInsert, if_pos h2]
  have e2 : List.orderedInsert (fun a b : ℕ × ℝ => b.2 ≤ a.2)
      (0, idfW 3 2 / 3)
      [(2, idfW 3 2 / 4 + idfW 3 2 / 4), (1, idfW 3 2 / 3)] =
      [(2, idfW 3 2 / 4 + idfW 3 2 / 4), (0, idfW 3 2 / 3), (1, idfW 3 2 / 3)] := by
    rw [List.orderedInsert, if_neg h3, List.orderedInsert,
      if_pos (le_refl (idfW 3 2 / 3))]
  rw [rankScores, List.insertionSort, List.insertionSort, List.insertionSort,
    List.insertionSort, List.orderedInsert_nil, e1, e2]

theorem rankedList_demo6 :
    rankedList (build_index demoChunks) ["cat", "dog"] 6 =
      [(2, idfW 3 2 / 4 + idfW 3 2 / 4), (0, idfW 3 2 / 3), (1, idfW 3 2 / 3)] := by
  rw [rankedList, scoresList_demo, rankScores_demo]
  rfl

theorem rankedList_demo2 :
    rankedList (build_index demoChunks) ["cat", "dog"] 2 =
      [(2, idfW 3 2 / 4 + idfW 3 2 / 4), (0, idfW 3 2 / 3)] := by
  rw [rankedList, scoresList_demo, rankScores_demo]
  rfl

theorem retrieve_demo6 :
    retrieve (some (build_index demoChunks)) "cat dog" 6 =
      [(⟨"c", "cat and dog play"⟩, idfW 3 2 / 4 + idfW 3 2 / 4),
        (⟨"a", "the cat sat"⟩, idfW 3 2 / 3),
        (⟨"b", "the dog ran"⟩, idfW 3 2 / 3)] := by
  have htok : tokenize "cat dog" = ["cat", "dog"] := by decide
  simp only [retrieve, htok]
  rw [if_neg (by decide : ¬ ("cat dog" = "")),
    if_neg (by decide : ¬ ((["cat", "dog"] : List String) = [])),
    scoresList_demo]
  rw [if_neg (by simp), rankedList_demo6]
  have hc0 : (build_index demoChunks).chunks.get? 0 =
      some ⟨"a", "the cat sat"⟩ := by decide
  have hc1 : (build_index demoChunks).chunks.get? 1 =
      some ⟨"b", "the dog ran"⟩ := by decide
  have hc2 : (build_index demoChunks).chunks.get? 2 =
      some ⟨"c", "cat and dog play"⟩ := by decide
  simp only [List.map_cons, List.map_nil, hc0, hc1, hc2, Option.getD_some]

theorem retrieve_demo2 :
    retrieve (some (build_index demoChunks)) "cat dog" 2 =
      [(⟨"c", "cat and dog play"⟩, idfW 3 2 / 4 + idfW 3 2 / 4),
        (⟨"a", "the cat sat"⟩, idfW 3 2 / 3)] := by
  have htok : tokenize "cat dog" = ["cat", "dog"] := by decide
  simp only [retrieve, htok]
  rw [if_neg (by decide : ¬ ("cat dog" = "")),
    if_neg (by decide : ¬ ((["cat", "dog"] : List String) = [])),
    scoresList_demo]
  rw [if_neg (by simp), rankedList_demo2]
  have hc0 : (build_index demoChunks).chunks.get? 0 =
      some ⟨"a", "the cat sat"⟩ := by decide
  have hc2 : (build_index demoChunks).chunks.get? 2 =
      some ⟨"c", "cat and dog play"⟩ := by decide
  simp only [List.map_cons, List.map_nil, hc0, hc2, Option.getD_some]

/-- C1: on the scenario chunks a/b/c, the query "cat dog" ranks chunk "c"
first (at or above "a" and "b", since it matches both terms), and the same
query with top_k = 2 returns exactly 2 items. -/
theorem scenario_ranking :
    ((retrieve (some (build_index demoChunks)) "cat dog" 6).map
        fun p => p.1.id) = ["c", "a", "b"] ∧
      (retrieve (some (build_index demoChunks)) "cat dog" 2).length = 2 := by
  constructor
  · rw [retrieve_demo6]
    rfl
  · rw [retrieve_demo2]
    rfl

theorem idfGet_tie_a : idfGet (build_index tieChunks) "a" = idfW 2 1 := by
  have h : alookup "a" (dfMap (build_index tieChunks).inv) = some 1 := by decide
  rw [idfGet, h]
  rfl

theorem idfGet_tie_b : idfGet (build_index tieChunks) "b" = idfW 2 1 := by
  have h : alookup "b" (dfMap (build_index tieChunks).inv) = some 1 := by decide
  rw [idfGet, h]
  rfl

theorem scoreStep_tie_a :
    scoreStep (build_index tieChunks) [] "a" = [(1, idfW 2 1)] := by
  have h : alookup "a" (build_index tieChunks).inv = some [(1, 1)] := by decide
  have hl1 : lenAt (build_index tieChunks) 1 = 1 := by decide
  rw [scoreStep, h]
  dsimp only
  rw [if_neg (by decide : ¬ (([(1, 1)] : List (ℕ × ℕ)) = []))]
  simp only [List.foldl_cons, List.foldl_nil, addScore, idfGet_tie_a, hl1]
  norm_num

theorem scoreStep_tie_b :
    scoreStep (build_index tieChunks) [(1, idfW 2 1)] "b" =
      [(1, idfW 2 1), (0, idfW 2 1)] := by
  have h : alookup "b" (build_index tieChunks).inv = some [(0, 1)] := by decide
  have hl0 : lenAt (build_index tieChunks) 0 = 1 := by decide
  rw [scoreStep, h]
  dsimp only
  rw [if_neg (by decide : ¬ (([(0, 1)] : List (ℕ × ℕ)) = []))]
  simp only [List.foldl_cons, List.foldl_nil, addScore, idfGet_tie_b, hl0]
  norm_num

theorem scoresList_tie :
    scoresList (build_index tieChunks) ["a", "b"] =
      [(1, idfW 2 1), (0, idfW 2 1)] := by
  rw [scoresList, List.foldl_cons, List.foldl_cons, List.foldl_nil,
    scoreStep_tie_a, scoreStep_tie_b]

theorem rankScores_tie :
    rankScores [(1, idfW 2 1), (0, idfW 2 1)] =
      [(1, idfW 2 1), (0, idfW 2 1)] := by
  rw [rankScores, List.insertionSort, List.insertionSort, List.insertionSort,
    List.orderedInsert_nil, List.orderedInsert, if_pos (le_refl (idfW 2 1))]

theorem rankedList_tie :
    rankedList (build_index tieChunks) ["a", "b"] 6 =
      [(1, idfW 2 1), (0, idfW 2 1)] := by
  rw [rankedList, scoresList_tie, rankScores_tie]
  rfl

theorem retrieve_tie :
    retrieve (some (build_index tieChunks)) "a b" 6 =
      [(⟨"y", "a"⟩, idfW 2 1), (⟨"x", "b"⟩, idfW 2 1)] := by
  have htok : tokenize "a b" = ["a", "b"] := by decide
  simp only [retrieve, htok]
  rw [if_neg (by decide : ¬ ("a b" = "")),
    if_neg (by decide : ¬ ((["a", "b"] : List String) = [])),
    scoresList_tie]
  rw [if_neg (by simp), rankedList_tie]
  have hc0 : (build_index tieChunks).chunks.get? 0 = some ⟨"x", "b"⟩ := by decide
  have hc1 : (build_index tieChunks).chunks.get? 1 = some ⟨"y", "a"⟩ := by decide
  simp only [List.map_cons, List.map_nil, hc0, hc1, Option.getD_some]

/-- C2 counterexample: on the chunk collection [x:"b", y:"a"] and the query
"a b", both chunks accumulate the same score idfW 2 1, yet the chunk at
position 1 (id "y") is ranked before the chunk at position 0 (id "x"):
ties are broken by the order positions first received a score (the query
scan order), not by ascending chunk position. -/
theorem tie_not_position_ordered :
    rankedList (build_index tieChunks) (tokenize "a b") 6 =
        [(1, idfW 2 1), (0, idfW 2 1)] ∧
      (retrieve (some (build_index tieChunks)) "a b" 6).map (fun p => p.1.id) =
        ["y", "x"] := by
  constructor
  · rw [(by decide : tokenize "a b" = ["a", "b"]), rankedList_tie]
  · rw [retrieve_tie]
    rfl

theorem ties_follow_first_touch_witness :
    List.Sublist [((1 : ℕ), idfW 2 1), ((0 : ℕ), idfW 2 1)]
      (scoresList (build_index tieChunks) ["a", "b"]) :=
  ties_follow_first_touch (build_index tieChunks) ["a", "b"] 6 (1, idfW 2 1)
    (0, idfW 2 1)
    (by rw [rankedList_tie]) rfl

theorem retrieve_no_match_excluded_witness :
    0 < (Chunk.mk "c" "cat and dog play", idfW 3 2 / 4 + idfW 3 2 / 4).2 ∧
      ∃ tq ∈ tokenize "cat dog",
        tq ∈ tokenize
          (Chunk.mk "c" "cat and dog play", idfW 3 2 / 4 + idfW 3 2 / 4).1.text :=
  retrieve_no_match_excluded demoChunks "cat dog" 6
    (⟨"c", "cat and dog play"⟩, idfW 3 2 / 4 + idfW 3 2 / 4)
    (by rw [retrieve_demo6]; exact List.mem_cons_self _ _)

/-! ### The upload handler -/

/-- C9 counterexample: with an old index held in the session, a successful
upload whose index build fails leaves the session index absent (the except
branch at `home.py` line 106 assigns None), so the caller does not still
hold the previously held index. -/
theorem index_cleared_on_build_failure :
    (uploadHandler
        ⟨["olddoc"], [⟨"o", "old"⟩], some (build_index [⟨"o", "old"⟩]), none⟩
        [("f", 1)] (Except.ok (["newdoc"], [⟨"n", "new"⟩])) true).index = none ∧
      (uploadHandler
        ⟨["olddoc"], [⟨"o", "old"⟩], some (build_index [⟨"o", "old"⟩]), none⟩
        [("f", 1)] (Except.ok (["newdoc"], [⟨"n", "new"⟩])) true).index ≠
        (⟨["olddoc"], [⟨"o", "old"⟩], some (build_index [⟨"o", "old"⟩]),
          none⟩ : AppState).index := by
  decide

/-- C9 amended: the handler never leaves a partial index — after an upload
with non-empty docs and chunks, the session index is the fully built new
index when the build succeeds and absent (None, not the old index) when
the build fails; on a processing failure the whole state, index included,
is unchanged. -/
theorem upload_handler_atomic (st : AppState) (fp : List (String × ℕ))
    (newDocs : List String) (newChunks : List Chunk) (buildFails : Bool)
    (hfp : st.lastFp ≠ some fp) (hd : newDocs ≠ []) (hc : newChunks ≠ []) :
    (buildFails = true →
        (uploadHandler st fp (Except.ok (newDocs, newChunks)) buildFails).index =
          none) ∧
      (buildFails = false →
        (uploadHandler st fp (Except.ok (newDocs, newChunks)) buildFails).index =
          some (build_index newChunks)) ∧
      ∀ e : String, uploadHandler st fp (Except.error e) buildFails = st := by
  refine ⟨?_, ?_, ?_⟩
  · intro hb
    subst hb
    rw [uploadHandler, if_neg hfp]
    dsimp only
    rw [if_neg (by simp [hd, hc])]
    simp
  · intro hb
    subst hb
    rw [uploadHandler, if_neg hfp]
    dsimp only
    rw [if_neg (by simp [hd, hc])]
    simp
  · intro e
    rw [uploadHandler, if_neg hfp]

theorem upload_handler_atomic_witness :
    (uploadHandler ⟨[], [], none, none⟩ [("f", 1)]
        (Except.ok (["d"], [Chunk.mk "n" "new"])) false).index =
      some (build_index [Chunk.mk "n" "new"]) :=
  (upload_handler_atomic ⟨[], [], none, none⟩ [("f", 1)] ["d"]
    [⟨"n", "new"⟩] false (by decide) (by decide) (by decide)).2.1 rfl
